import Mathlib

/-!
Verification of `quantization/optimal_quantization.py`.

The module implements, over an external metric capability
(`geomstats.hypersphere.HypersphereMetric`), four public operations:
`closest_neighbor`, `diameter_of_data`, `karcher_flow` and
`optimal_quantization`.  We embed the module shallowly:

* manifold points and tangent vectors are abstract types `P` and `T`;
  the external metric object is a structure `MetricProvider` with the
  three primitives `dist`, `exp`, `log` (floats become rationals);
* the global NumPy random state is an explicit stream of naturals
  (`RNG`); `np.random.randint(0, n)` draws the next stream value modulo
  `n` and raises `ValueError` when `n = 0`, as NumPy does;
* Python exceptions become `Except QErr`; the unbounded `while` loops
  take a fuel argument and return `Option` (`none` = fuel exhausted,
  which models a run that has not converged yet).
-/

/-- Python errors raised by the module: `NotImplementedError` carrying the
requested space and the catalog of implemented spaces (the two data
interpolated into its message), and NumPy's `ValueError`. -/
inductive QErr : Type where
  | unsupportedManifold (requested : String) (catalog : List String)
  | valueError
deriving DecidableEq, Repr

/-- The module constant `TOLERANCE = 1e-5`. -/
def TOLERANCE : ℚ := 1 / 100000

/-- The module constant `IMPLEMENTED = ('S1', 'S2')`. -/
def IMPLEMENTED : List String := ["S1", "S2"]

/-- The external metric capability: `HypersphereMetric` exposes `dist`,
`exp` and `log`.  `P` is the type of manifold points, `T` of tangent
vectors. -/
structure MetricProvider (P T : Type) : Type where
  dist : P → P → ℚ
  exp : T → P → P
  log : P → P → T

/-- The NumPy global random state, as an explicit stream of naturals with
a read position. -/
structure RNG : Type where
  seq : ℕ → ℕ
  pos : ℕ

/-- Draw the next raw value from the stream. -/
def RNG.next (r : RNG) : ℕ × RNG :=
  (r.seq r.pos, { r with pos := r.pos + 1 })

/-- Draw `size` indices in `[0, high)`, modelling
`np.random.randint(low=0, high, size=size)` after its `low < high` check
has passed. -/
def drawIndices (high : ℕ) : ℕ → RNG → List ℕ × RNG
  | 0, r => ([], r)
  | size + 1, r =>
      let v := r.next
      let rest := drawIndices high size v.2
      ((v.1 % high) :: rest.1, rest.2)

/-- Function `sample_from(points, size)`: sample `size` points, with replacement,
from the empirical distribution of `points`.  `np.random.randint` raises
`ValueError` when the cloud is empty (`low >= high`); the fancy
indexing `points[np.ix_(index, ...)]` builds a fresh array of the
selected rows. -/
def sample_from [Inhabited P] (points : List P) (size : ℕ) (r : RNG) :
    Except QErr (List P × RNG) :=
  if points.length = 0 then .error .valueError
  else
    let d := drawIndices points.length size r
    .ok (d.1.map (fun i => points.getD i default), d.2)

/-- Minimum of a NumPy array (`.min()`); junk value `0` on the empty
array, on which NumPy raises instead. -/
def minL : List ℚ → ℚ
  | [] => 0
  | [x] => x
  | x :: y :: xs => min x (minL (y :: xs))

/-- Maximum of a NumPy array (`.max()`); junk value `0` on the empty
array, on which NumPy raises instead. -/
def maxL : List ℚ → ℚ
  | [] => 0
  | [x] => x
  | x :: y :: xs => max x (maxL (y :: xs))

/-- Behaviour of `np.argmin`: index of the first occurrence of the minimum value
(junk value `0` on the empty array, on which NumPy raises instead). -/
def argminL : List ℚ → ℕ
  | [] => 0
  | [_] => 0
  | x :: y :: xs => if minL (y :: xs) < x then argminL (y :: xs) + 1 else 0

/-- Function `closest_neighbor(point, neighbors, space)`.  The metric objects the
two supported branches construct (`HypersphereMetric(dimension=1)` and
`HypersphereMetric(dimension=2)`) are the external parameters `mS1` and
`mS2`.  `metric.dist(point, neighbors)` is the vectorised distance array;
`argmin` on an empty array raises `ValueError`. -/
def closest_neighbor (mS1 mS2 : MetricProvider P T) (point : P)
    (neighbors : List P) (space : String) : Except QErr ℕ :=
  if space ∉ IMPLEMENTED then
    .error (.unsupportedManifold space IMPLEMENTED)
  else
    let metric := if space = "S1" then mS1 else mS2
    let dl := neighbors.map (metric.dist point)
    if dl.length = 0 then .error .valueError
    else .ok (argminL dl)

/-- The body of the `for i in range(n_points-1)` loop of
`diameter_of_data`, as structural recursion on the point list: at every
position `i` with a non-empty tail, take the distances from `points[i]`
to `points[i+1:]`, their max, double it, and fold into the running
maximum `acc`. -/
def diamLoop (d : P → P → ℚ) (acc : ℚ) : List P → ℚ
  | [] => acc
  | [_] => acc
  | p :: q :: rest =>
      diamLoop d (max acc (maxL ((q :: rest).map (d p)) * 2)) (q :: rest)

/-- Function `diameter_of_data(points, space)`: running maximum, over `i`, of
twice the largest distance from `points[i]` to the later points; starts
at `0.0`. -/
def diameter_of_data (mS1 mS2 : MetricProvider P T) (points : List P)
    (space : String) : Except QErr ℚ :=
  if space ∉ IMPLEMENTED then
    .error (.unsupportedManifold space IMPLEMENTED)
  else
    let metric := if space = "S1" then mS1 else mS2
    .ok (diamLoop metric.dist 0 points)

/-- The tangent-vector update of one Karcher-flow iteration: stack
`log(points[i], karcher_mean)` for every `i`, sum over axis 0, divide by
`n_points`. -/
def tanAvg [AddCommMonoid T] [Module ℚ T] (metric : MetricProvider P T)
    (points : List P) (m : P) : T :=
  ((points.length : ℚ)⁻¹) • ((points.map (fun p => metric.log p m)).foldr (· + ·) 0)

/-- The `while gap > tolerance` loop of `karcher_flow`, with fuel.  Each
pass advances the mean along the averaged tangent, recomputes the gap as
the distance between the old and new mean, and increments the step
counter. -/
def karcherLoop [AddCommMonoid T] [Module ℚ T] (metric : MetricProvider P T)
    (points : List P) (tolerance : ℚ) : ℕ → P → ℚ → ℕ → Option (P × ℕ)
  | 0, m, gap, step => if tolerance < gap then none else some (m, step)
  | fuel + 1, m, gap, step =>
      if tolerance < gap then
        let m' := metric.exp (tanAvg metric points m) m
        karcherLoop metric points tolerance fuel m' (metric.dist m m') (step + 1)
      else some (m, step)

/-- Function `karcher_flow(points, space, tolerance)`: check the space, draw one
random initial mean (`sample_from(points)`, a single row), then iterate
from `gap = 1.0`, `step = 0`. -/
def karcher_flow [Inhabited P] [AddCommMonoid T] [Module ℚ T]
    (mS1 mS2 : MetricProvider P T) (points : List P) (space : String)
    (tolerance : ℚ) (r : RNG) (fuel : ℕ) : Except QErr (Option (P × ℕ)) :=
  if space ∉ IMPLEMENTED then
    .error (.unsupportedManifold space IMPLEMENTED)
  else
    let metric := if space = "S1" then mS1 else mS2
    match sample_from points 1 r with
    | .error e => .error e
    | .ok s => .ok (karcherLoop metric points tolerance fuel (s.1.getD 0 default) 1 0)

/-- The zero-gap substitution `gap = (gap != 0) * gap + (gap == 0)`:
NumPy booleans coerce to `0`/`1` under arithmetic. -/
def gapAdjust (gap : ℚ) : ℚ :=
  (if gap ≠ 0 then (1 : ℚ) else 0) * gap + (if gap = 0 then (1 : ℚ) else 0)

/-- The `while gap > tolerance` loop of `optimal_quantization`, with
fuel.  Each pass increments the step counter, derives the epoch index
`k = floor(step / n_repetition) + 1` (Python's true division raises
`ZeroDivisionError` on `n_repetition = 0`), draws one sample, moves the
winning center towards it along the geodesic by the fraction `1/(k+1)`
of the log, recomputes the gap with the zero-gap substitution, and
writes the new center in place. -/
def quantLoop [Inhabited P] [AddCommMonoid T] [Module ℚ T]
    (mS1 mS2 : MetricProvider P T) (space : String) (points : List P)
    (n_repetition : ℕ) (tolerance : ℚ) :
    ℕ → RNG → List P → ℚ → ℕ → Except QErr (Option (List P × ℕ))
  | 0, _, centers, gap, step =>
      if tolerance < gap then .ok none else .ok (some (centers, step))
  | fuel + 1, r, centers, gap, step =>
      if tolerance < gap then
        if n_repetition = 0 then .error .valueError
        else
          let step' := step + 1
          let k : ℕ := step' / n_repetition + 1
          match sample_from points 1 r with
          | .error e => .error e
          | .ok s =>
              let sample := s.1.getD 0 default
              match closest_neighbor mS1 mS2 sample centers space with
              | .error e => .error e
              | .ok index =>
                  let metric := if space = "S1" then mS1 else mS2
                  let center_to_update := centers.getD index default
                  let tan_vec_update :=
                    (((k : ℚ) + 1)⁻¹) • metric.log sample center_to_update
                  let new_center := metric.exp tan_vec_update center_to_update
                  let gap' := gapAdjust (metric.dist center_to_update new_center)
                  quantLoop mS1 mS2 space points n_repetition tolerance fuel
                    s.2 (centers.set index new_center) gap' step'
      else .ok (some (centers, step))

/-- The final labeling pass of `optimal_quantization`: for every point,
find its closest center, append the index to the clustering, and add one
to that center's occurrence count. -/
def labelLoop (mS1 mS2 : MetricProvider P T) (space : String) (centers : List P) :
    List P → List ℕ → List ℚ → Except QErr (List ℕ × List ℚ)
  | [], clustering, weights => .ok (clustering, weights)
  | p :: rest, clustering, weights =>
      match closest_neighbor mS1 mS2 p centers space with
      | .error e => .error e
      | .ok index =>
          labelLoop mS1 mS2 space centers rest (clustering ++ [index])
            (weights.set index (weights.getD index 0 + 1))

/-- Function `optimal_quantization(points, n_centers, space, n_repetition,
tolerance)`: check the space, draw the initial centers, run the
competitive-learning loop from `gap = 1.0`, `step = 0`, then label every
point and normalise the occurrence counts by `n_points`. -/
def optimal_quantization [Inhabited P] [AddCommMonoid T] [Module ℚ T]
    (mS1 mS2 : MetricProvider P T) (points : List P) (n_centers : ℕ)
    (space : String) (n_repetition : ℕ) (tolerance : ℚ) (r : RNG)
    (fuel : ℕ) : Except QErr (Option (List P × List ℚ × List ℕ × ℕ)) :=
  if space ∉ IMPLEMENTED then
    .error (.unsupportedManifold space IMPLEMENTED)
  else
    match sample_from points n_centers r with
    | .error e => .error e
    | .ok c =>
        match quantLoop mS1 mS2 space points n_repetition tolerance fuel c.2 c.1 1 0 with
        | .error e => .error e
        | .ok none => .ok none
        | .ok (some fin) =>
            match labelLoop mS1 mS2 space fin.1 points [] (List.replicate n_centers 0) with
            | .error e => .error e
            | .ok lw =>
                .ok (some (fin.1, lw.2.map (fun w => w / (points.length : ℚ)),
                  lw.1, fin.2))

/-- The list of the distances `d points[i] points[j]`, over all index
pairs `i < j`, used to state what `diameter_of_data` maximises. -/
def pairVals (d : P → P → ℚ) : List P → List ℚ
  | [] => []
  | p :: rest => rest.map (d p) ++ pairVals d rest

/-- A concrete metric provider on `ℚ` (the real line as a mock
1-dimensional manifold), used to instantiate witnesses. -/
def mQ : MetricProvider ℚ ℚ where
  dist := fun a b => if a ≤ b then b - a else a - b
  exp := fun t p => p + t
  log := fun p b => p - b

/-- A concrete deterministic random stream for witnesses. -/
def rZero : RNG where
  seq := fun _ => 0
  pos := 0

/-! ## Properties of the argmin scan -/

theorem minL_le_mem : ∀ (l : List ℚ), ∀ x ∈ l, minL l ≤ x := by
  intro l
  induction l with
  | nil => intro x hx; cases hx
  | cons a t ih =>
      intro x hx
      cases t with
      | nil =>
          rcases List.mem_cons.mp hx with h | h
          · simp [minL, h]
          · cases h
      | cons b t' =>
          rcases List.mem_cons.mp hx with h | h
          · simp [minL, h]
          · exact le_trans (min_le_right _ _) (ih x h)

theorem minL_mem : ∀ (l : List ℚ), l ≠ [] → minL l ∈ l := by
  intro l
  induction l with
  | nil => intro h; exact absurd rfl h
  | cons a t ih =>
      intro _
      cases t with
      | nil => simp [minL]
      | cons b t' =>
          rcases le_total a (minL (b :: t')) with h | h
          · simp [minL, min_eq_left h]
          · have := ih (by simp)
            simp only [minL, min_eq_right h]
            exact List.mem_cons_of_mem _ this

theorem argminL_lt_length : ∀ (l : List ℚ), l ≠ [] → argminL l < l.length := by
  intro l
  induction l with
  | nil => intro h; exact absurd rfl h
  | cons a t ih =>
      intro _
      cases t with
      | nil => simp [argminL]
      | cons b t' =>
          simp only [argminL]
          split
          · have := ih (by simp)
            simpa [Nat.succ_lt_succ_iff] using this
          · simp

theorem get_argminL : ∀ (l : List ℚ) (hlt : argminL l < l.length),
    l.get ⟨argminL l, hlt⟩ = minL l := by
  intro l
  induction l with
  | nil => intro h; simp at h
  | cons a t ih =>
      intro hlt
      cases t with
      | nil => simp [argminL, minL]
      | cons b t' =>
          by_cases h : minL (b :: t') < a
          · have harg : argminL (a :: b :: t') = argminL (b :: t') + 1 := by
              simp [argminL, h]
            have hlt' : argminL (b :: t') < (b :: t').length := by
              have := hlt
              rw [harg] at this
              simpa [Nat.succ_lt_succ_iff] using this
            have hget : (a :: b :: t').get ⟨argminL (b :: t') + 1, by simpa [Nat.succ_lt_succ_iff] using hlt'⟩ =
                (b :: t').get ⟨argminL (b :: t'), hlt'⟩ := rfl
            simp only [harg]
            rw [hget, ih hlt']
            simp [minL, min_eq_right (le_of_lt h)]
          · have harg : argminL (a :: b :: t') = 0 := by simp [argminL, h]
            simp only [harg]
            have : minL (a :: b :: t') = a := min_eq_left (le_of_not_lt h)
            simp [this]

theorem argminL_first : ∀ (l : List ℚ) (j : ℕ) (hj : j < l.length),
    j < argminL l → minL l < l.get ⟨j, hj⟩ := by
  intro l
  induction l with
  | nil => intro j hj; simp at hj
  | cons a t ih =>
      intro j hj hlt
      cases t with
      | nil => simp [argminL] at hlt
      | cons b t' =>
          by_cases h : minL (b :: t') < a
          · have harg : argminL (a :: b :: t') = argminL (b :: t') + 1 := by
              simp [argminL, h]
            rw [harg] at hlt
            have hmin : minL (a :: b :: t') = minL (b :: t') :=
              min_eq_right (le_of_lt h)
            cases j with
            | zero => simpa [hmin] using h
            | succ k =>
                have hk : k < (b :: t').length := by
                  simpa [Nat.succ_lt_succ_iff] using hj
                have := ih k hk (by omega)
                simpa [hmin] using this
          · have harg : argminL (a :: b :: t') = 0 := by simp [argminL, h]
            rw [harg] at hlt
            omega

/-! ## The nearest-neighbor finder -/

theorem closest_neighbor_supported {P T : Type} (mS1 mS2 : MetricProvider P T)
    (point : P) (neighbors : List P) (space : String)
    (hsp : space ∈ IMPLEMENTED) (hnb : neighbors ≠ []) :
    closest_neighbor mS1 mS2 point neighbors space =
      .ok (argminL (neighbors.map ((if space = "S1" then mS1 else mS2).dist point))) := by
  simp [closest_neighbor, hsp, hnb]

theorem closest_neighbor_ok_lt {P T : Type} {mS1 mS2 : MetricProvider P T}
    {point : P} {neighbors : List P} {space : String} {i : ℕ}
    (h : closest_neighbor mS1 mS2 point neighbors space = .ok i) :
    i < neighbors.length := by
  by_cases hsp : space ∈ IMPLEMENTED
  · cases hnb : neighbors with
    | nil => rw [hnb] at h; simp [closest_neighbor, hsp] at h
    | cons a t =>
        rw [hnb] at h
        rw [closest_neighbor_supported mS1 mS2 point (a :: t) space hsp (by simp)] at h
        have := argminL_lt_length ((a :: t).map ((if space = "S1" then mS1 else mS2).dist point)) (by simp)
        simp only [Except.ok.injEq] at h
        subst h
        simpa using this
  · simp [closest_neighbor, hsp] at h

/-- C6: for every point, every non-empty candidate set and every
supported space, `closest_neighbor` returns the smallest index minimising
the distance to the point (first-minimal tie-breaking), and it is a
deterministic function of its inputs, so two calls on identical inputs
agree. -/
theorem closest_neighbor_first_argmin {P T : Type} (mS1 mS2 : MetricProvider P T)
    (point : P) (neighbors : List P) (space : String)
    (hsp : space ∈ IMPLEMENTED) (hnb : neighbors ≠ []) :
    ∃ (i : ℕ) (hi : i < neighbors.length),
      closest_neighbor mS1 mS2 point neighbors space = .ok i ∧
      (∀ (j : ℕ) (hj : j < neighbors.length),
        (if space = "S1" then mS1 else mS2).dist point (neighbors.get ⟨i, hi⟩) ≤
          (if space = "S1" then mS1 else mS2).dist point (neighbors.get ⟨j, hj⟩)) ∧
      (∀ (j : ℕ) (hj : j < neighbors.length), j < i →
        (if space = "S1" then mS1 else mS2).dist point (neighbors.get ⟨i, hi⟩) <
          (if space = "S1" then mS1 else mS2).dist point (neighbors.get ⟨j, hj⟩)) ∧
      closest_neighbor mS1 mS2 point neighbors space =
        closest_neighbor mS1 mS2 point neighbors space := by
  set M := if space = "S1" then mS1 else mS2 with hM
  set dl := neighbors.map (M.dist point) with hdl
  have hdlne : dl ≠ [] := by
    simp [hdl]; exact hnb
  have hlen : dl.length = neighbors.length := by simp [hdl]
  have hlt : argminL dl < neighbors.length := by
    have := argminL_lt_length dl hdlne
    omega
  refine ⟨argminL dl, hlt, closest_neighbor_supported mS1 mS2 point neighbors space hsp hnb, ?_, ?_, rfl⟩
  · intro j hj
    have hjd : j < dl.length := by omega
    have hgi : dl.get ⟨argminL dl, by omega⟩ = M.dist point (neighbors.get ⟨argminL dl, hlt⟩) := by
      simp [hdl]
    have hgj : dl.get ⟨j, hjd⟩ = M.dist point (neighbors.get ⟨j, hj⟩) := by
      simp [hdl]
    have h1 : dl.get ⟨argminL dl, by omega⟩ = minL dl := get_argminL dl (by omega)
    have h2 : minL dl ≤ dl.get ⟨j, hjd⟩ := minL_le_mem dl _ (List.get_mem dl j hjd)
    rw [← hgi, ← hgj, h1]
    exact h2
  · intro j hj hji
    have hjd : j < dl.length := by omega
    have hgi : dl.get ⟨argminL dl, by omega⟩ = M.dist point (neighbors.get ⟨argminL dl, hlt⟩) := by
      simp [hdl]
    have hgj : dl.get ⟨j, hjd⟩ = M.dist point (neighbors.get ⟨j, hj⟩) := by
      simp [hdl]
    have h1 : dl.get ⟨argminL dl, by omega⟩ = minL dl := get_argminL dl (by omega)
    have h2 : minL dl < dl.get ⟨j, hjd⟩ := argminL_first dl j hjd hji
    rw [← hgi, ← hgj, h1]
    exact h2

/-- Witness for C6 on a concrete input: the candidate set `[7, 2, 5, 2]`
on the mock line manifold is non-empty, the space is supported, and the
stable-argmin specification holds there. -/
theorem closest_neighbor_first_argmin_witness :
    "S1" ∈ IMPLEMENTED ∧ ([7, 2, 5, 2] : List ℚ) ≠ [] ∧
    (∃ (i : ℕ) (hi : i < ([7, 2, 5, 2] : List ℚ).length),
      closest_neighbor mQ mQ (3 : ℚ) [7, 2, 5, 2] "S1" = .ok i ∧
      (∀ (j : ℕ) (hj : j < ([7, 2, 5, 2] : List ℚ).length),
        (if "S1" = "S1" then mQ else mQ).dist 3 (([7, 2, 5, 2] : List ℚ).get ⟨i, hi⟩) ≤
          (if "S1" = "S1" then mQ else mQ).dist 3 (([7, 2, 5, 2] : List ℚ).get ⟨j, hj⟩)) ∧
      (∀ (j : ℕ) (hj : j < ([7, 2, 5, 2] : List ℚ).length), j < i →
        (if "S1" = "S1" then mQ else mQ).dist 3 (([7, 2, 5, 2] : List ℚ).get ⟨i, hi⟩) <
          (if "S1" = "S1" then mQ else mQ).dist 3 (([7, 2, 5, 2] : List ℚ).get ⟨j, hj⟩)) ∧
      closest_neighbor mQ mQ (3 : ℚ) [7, 2, 5, 2] "S1" =
        closest_neighbor mQ mQ (3 : ℚ) [7, 2, 5, 2] "S1") :=
  ⟨by norm_num [IMPLEMENTED], by simp,
    closest_neighbor_first_argmin mQ mQ (3 : ℚ) [7, 2, 5, 2] "S1"
      (by norm_num [IMPLEMENTED]) (by simp)⟩


/-! ## Error handling at the entry of the public operations -/

/-- C1: for every space argument outside the supported catalog, each of
the four public operations returns the unsupported-manifold error, whose
payload carries both the requested kind and the catalog, without any
further computation. -/
theorem unsupported_space_raises_everywhere {P T : Type} [Inhabited P]
    [AddCommMonoid T] [Module ℚ T] (mS1 mS2 : MetricProvider P T)
    (point : P) (neighbors points : List P) (n_centers n_repetition : ℕ)
    (tolerance : ℚ) (r r' : RNG) (fuel fuel' : ℕ) (space : String)
    (h : space ∉ IMPLEMENTED) :
    closest_neighbor mS1 mS2 point neighbors space =
      .error (.unsupportedManifold space IMPLEMENTED) ∧
    diameter_of_data mS1 mS2 points space =
      .error (.unsupportedManifold space IMPLEMENTED) ∧
    karcher_flow mS1 mS2 points space tolerance r fuel =
      .error (.unsupportedManifold space IMPLEMENTED) ∧
    optimal_quantization mS1 mS2 points n_centers space n_repetition tolerance r' fuel' =
      .error (.unsupportedManifold space IMPLEMENTED) := by
  refine ⟨?_, ?_, ?_, ?_⟩ <;>
    simp [closest_neighbor, diameter_of_data, karcher_flow, optimal_quantization, h]

/-- Witness for C1: requesting the 3-sphere, which is not in the
catalog, on all four operations over the mock manifold. -/
theorem unsupported_space_raises_everywhere_witness :
    "S3" ∉ IMPLEMENTED ∧
    (closest_neighbor mQ mQ (0 : ℚ) [1] "S3" =
      .error (.unsupportedManifold "S3" IMPLEMENTED) ∧
    diameter_of_data mQ mQ ([2, 3] : List ℚ) "S3" =
      .error (.unsupportedManifold "S3" IMPLEMENTED) ∧
    karcher_flow mQ mQ ([2, 3] : List ℚ) "S3" TOLERANCE rZero 5 =
      .error (.unsupportedManifold "S3" IMPLEMENTED) ∧
    optimal_quantization mQ mQ ([2, 3] : List ℚ) 1 "S3" 20 TOLERANCE rZero 5 =
      .error (.unsupportedManifold "S3" IMPLEMENTED)) :=
  ⟨by decide,
    unsupported_space_raises_everywhere mQ mQ 0 [1] [2, 3] 1 20 TOLERANCE
      rZero rZero 5 5 "S3" (by decide)⟩

/-- Counterexample to C7 as stated: on the empty point cloud the public
operation `diameter_of_data` does not fail at all; it returns the value
`0.0` (the loop body never runs), so no EmptyInput error is raised. -/
theorem empty_cloud_no_emptyinput_cex :
    diameter_of_data mQ mQ ([] : List ℚ) "S1" = .ok 0 := by
  norm_num [diameter_of_data, IMPLEMENTED, diamLoop]

/-- C7 amended: there is no dedicated EmptyInput failure.  On an empty
cloud (with a supported space) `diameter_of_data` returns `0.0`;
`karcher_flow` and `optimal_quantization` fail only incidentally, with
the `ValueError` that `np.random.randint` raises on an empty range, and
`closest_neighbor` with an empty candidate set fails with the
`ValueError` of `argmin` on an empty array. -/
theorem empty_cloud_actual_behavior {P T : Type} [Inhabited P]
    [AddCommMonoid T] [Module ℚ T] (mS1 mS2 : MetricProvider P T)
    (point : P) (n_centers n_repetition : ℕ) (tolerance : ℚ)
    (r r' : RNG) (fuel fuel' : ℕ) (space : String)
    (hsp : space ∈ IMPLEMENTED) :
    diameter_of_data mS1 mS2 ([] : List P) space = .ok 0 ∧
    karcher_flow mS1 mS2 ([] : List P) space tolerance r fuel =
      .error .valueError ∧
    optimal_quantization mS1 mS2 ([] : List P) n_centers space n_repetition tolerance r' fuel' =
      .error .valueError ∧
    closest_neighbor mS1 mS2 point ([] : List P) space = .error .valueError := by
  refine ⟨?_, ?_, ?_, ?_⟩ <;>
    simp [closest_neighbor, diameter_of_data, karcher_flow, optimal_quantization,
      sample_from, diamLoop, hsp]

/-- Witness for the amended C7 at the supported space S1 over the mock
manifold. -/
theorem empty_cloud_actual_behavior_witness :
    "S1" ∈ IMPLEMENTED ∧
    (diameter_of_data mQ mQ ([] : List ℚ) "S1" = .ok 0 ∧
    karcher_flow mQ mQ ([] : List ℚ) "S1" TOLERANCE rZero 7 =
      .error .valueError ∧
    optimal_quantization mQ mQ ([] : List ℚ) 3 "S1" 20 TOLERANCE rZero 7 =
      .error .valueError ∧
    closest_neighbor mQ mQ (5 : ℚ) ([] : List ℚ) "S1" = .error .valueError) :=
  ⟨by norm_num [IMPLEMENTED],
    empty_cloud_actual_behavior mQ mQ 5 3 20 TOLERANCE rZero rZero 7 7 "S1"
      (by norm_num [IMPLEMENTED])⟩

/-! ## The diameter estimator -/

theorem le_maxL_mem : ∀ (l : List ℚ), ∀ x ∈ l, x ≤ maxL l := by
  intro l
  induction l with
  | nil => intro x hx; cases hx
  | cons a t ih =>
      intro x hx
      cases t with
      | nil =>
          rcases List.mem_cons.mp hx with h | h
          · simp [maxL, h]
          · cases h
      | cons b t' =>
          rcases List.mem_cons.mp hx with h | h
          · simp [maxL, h]
          · exact le_trans (ih x h) (le_max_right _ _)

theorem maxL_mem : ∀ (l : List ℚ), l ≠ [] → maxL l ∈ l := by
  intro l
  induction l with
  | nil => intro h; exact absurd rfl h
  | cons a t ih =>
      intro _
      cases t with
      | nil => simp [maxL]
      | cons b t' =>
          rcases le_total (maxL (b :: t')) a with h | h
          · simp [maxL, max_eq_left h]
          · have := ih (by simp)
            simp only [maxL, max_eq_right h]
            exact List.mem_cons_of_mem _ this

theorem mem_pairVals {P : Type} (d : P → P → ℚ) :
    ∀ (l : List P) (x : ℚ), x ∈ pairVals d l ↔
      ∃ (i j : ℕ) (hi : i < l.length) (hj : j < l.length), i < j ∧
        x = d (l.get ⟨i, hi⟩) (l.get ⟨j, hj⟩) := by
  intro l
  induction l with
  | nil => intro x; simp [pairVals]
  | cons p rest ih =>
      intro x
      constructor
      · intro hx
        rcases List.mem_append.mp hx with h | h
        · rcases List.mem_map.mp h with ⟨q, hq, hxq⟩
          rcases List.mem_iff_get.mp hq with ⟨⟨j, hj⟩, hget⟩
          exact ⟨0, j + 1, by simp, by simpa [Nat.succ_lt_succ_iff] using hj,
            Nat.succ_pos j, by simp [← hxq, ← hget]⟩
        · rcases (ih x).mp h with ⟨i, j, hi, hj, hij, hx⟩
          exact ⟨i + 1, j + 1, by simpa [Nat.succ_lt_succ_iff] using hi,
            by simpa [Nat.succ_lt_succ_iff] using hj, by omega, by simpa using hx⟩
      · rintro ⟨i, j, hi, hj, hij, hx⟩
        cases i with
        | zero =>
            cases j with
            | zero => omega
            | succ j' =>
                have hj' : j' < rest.length := by simpa [Nat.succ_lt_succ_iff] using hj
                apply List.mem_append.mpr
                left
                apply List.mem_map.mpr
                refine ⟨rest.get ⟨j', hj'⟩, List.get_mem _ _ _, ?_⟩
                simp [hx]
        | succ i' =>
            cases j with
            | zero => omega
            | succ j' =>
                have hi' : i' < rest.length := by simpa [Nat.succ_lt_succ_iff] using hi
                have hj' : j' < rest.length := by simpa [Nat.succ_lt_succ_iff] using hj
                apply List.mem_append.mpr
                right
                exact (ih x).mpr ⟨i', j', hi', hj', by omega, by simpa using hx⟩

theorem foldl_max_double (acc : ℚ) :
    ∀ (m : List ℚ), m ≠ [] →
      List.foldl (fun a v => max a (v * 2)) acc m = max acc (maxL m * 2) := by
  intro m
  induction m generalizing acc with
  | nil => intro h; exact absurd rfl h
  | cons x t ih =>
      intro _
      cases t with
      | nil => simp [maxL]
      | cons y t' =>
          have h2 : (0 : ℚ) ≤ 2 := by norm_num
          have ihy := ih (max acc (x * 2)) (by simp)
          have hstep : List.foldl (fun a v => max a (v * 2)) acc (x :: y :: t') =
              List.foldl (fun a v => max a (v * 2)) (max acc (x * 2)) (y :: t') := rfl
          rw [hstep, ihy, max_assoc, ← max_mul_of_nonneg x (maxL (y :: t')) h2]
          simp only [maxL]

theorem diamLoop_eq_foldl {P : Type} (d : P → P → ℚ) :
    ∀ (l : List P) (acc : ℚ),
      diamLoop d acc l = List.foldl (fun a v => max a (v * 2)) acc (pairVals d l) := by
  intro l
  induction l with
  | nil => intro acc; simp [diamLoop, pairVals]
  | cons p t ih =>
      intro acc
      cases t with
      | nil => simp [diamLoop, pairVals]
      | cons q rest =>
          have hmap : (q :: rest).map (d p) ≠ [] := by simp
          calc diamLoop d acc (p :: q :: rest)
              = diamLoop d (max acc (maxL ((q :: rest).map (d p)) * 2)) (q :: rest) := by
                rw [diamLoop]
            _ = List.foldl (fun a v => max a (v * 2))
                  (max acc (maxL ((q :: rest).map (d p)) * 2)) (pairVals d (q :: rest)) := ih _
            _ = List.foldl (fun a v => max a (v * 2))
                  (List.foldl (fun a v => max a (v * 2)) acc ((q :: rest).map (d p)))
                  (pairVals d (q :: rest)) := by
                rw [foldl_max_double acc _ hmap]
            _ = List.foldl (fun a v => max a (v * 2)) acc
                  ((q :: rest).map (d p) ++ pairVals d (q :: rest)) := by
                rw [List.foldl_append]
            _ = List.foldl (fun a v => max a (v * 2)) acc (pairVals d (p :: q :: rest)) := rfl

theorem mQ_dist_symm : ∀ a b : ℚ, mQ.dist a b = mQ.dist b a := by
  intro a b
  simp only [mQ]
  rcases lt_trichotomy a b with h | h | h
  · rw [if_pos h.le, if_neg (not_le.mpr h)]
  · subst h; simp
  · rw [if_neg (not_le.mpr h), if_pos h.le]

theorem mQ_dist_nonneg : ∀ a b : ℚ, 0 ≤ mQ.dist a b := by
  intro a b
  simp only [mQ]
  split <;> linarith

/-- C4: for every cloud of at least two points, every supported space
and a nonnegative metric (the MetricProvider contract), the diameter is
exactly twice the maximum pairwise distance over index pairs i < j: the
maximum is attained at some pair, every pair is below it, and the
returned value is that maximum doubled. -/
theorem diameter_is_twice_max_pairwise_distance {P T : Type}
    (mS1 mS2 : MetricProvider P T) (points : List P) (space : String)
    (hsp : space ∈ IMPLEMENTED) (hlen : 2 ≤ points.length)
    (hnn : ∀ a b : P, 0 ≤ (if space = "S1" then mS1 else mS2).dist a b) :
    diameter_of_data mS1 mS2 points space =
      .ok (maxL (pairVals (if space = "S1" then mS1 else mS2).dist points) * 2) ∧
    (∃ (i j : ℕ) (hi : i < points.length) (hj : j < points.length), i < j ∧
      maxL (pairVals (if space = "S1" then mS1 else mS2).dist points) =
        (if space = "S1" then mS1 else mS2).dist (points.get ⟨i, hi⟩) (points.get ⟨j, hj⟩)) ∧
    (∀ (i j : ℕ) (hi : i < points.length) (hj : j < points.length), i < j →
      (if space = "S1" then mS1 else mS2).dist (points.get ⟨i, hi⟩) (points.get ⟨j, hj⟩) ≤
        maxL (pairVals (if space = "S1" then mS1 else mS2).dist points)) := by
  set M := if space = "S1" then mS1 else mS2 with hM
  have hpv : pairVals M.dist points ≠ [] := by
    cases points with
    | nil => simp at hlen
    | cons a t =>
        cases t with
        | nil => simp at hlen
        | cons b t' => simp [pairVals]
  have hmax_mem : maxL (pairVals M.dist points) ∈ pairVals M.dist points :=
    maxL_mem _ hpv
  have hmax_nn : 0 ≤ maxL (pairVals M.dist points) := by
    rcases (mem_pairVals M.dist points _).mp hmax_mem with ⟨i, j, hi, hj, hij, hx⟩
    rw [hx]
    exact hnn _ _
  refine ⟨?_, ?_, ?_⟩
  · have h1 : diameter_of_data mS1 mS2 points space = .ok (diamLoop M.dist 0 points) := by
      simp [diameter_of_data, hsp, hM]
    rw [h1, diamLoop_eq_foldl, foldl_max_double 0 _ hpv,
      max_eq_right (by linarith : (0 : ℚ) ≤ maxL (pairVals M.dist points) * 2)]
  · exact (mem_pairVals M.dist points _).mp hmax_mem
  · intro i j hi hj hij
    exact le_maxL_mem _ _ ((mem_pairVals M.dist points _).mpr ⟨i, j, hi, hj, hij, rfl⟩)

/-- Witness for C4 on a concrete input: the cloud `[0, 7, 3]` on the
mock line manifold, whose farthest pair is at distance `7`, giving a
diameter of `14`. -/
theorem diameter_is_twice_max_pairwise_distance_witness :
    "S1" ∈ IMPLEMENTED ∧ 2 ≤ ([0, 7, 3] : List ℚ).length ∧
    (∀ a b : ℚ, 0 ≤ (if "S1" = "S1" then mQ else mQ).dist a b) ∧
    diameter_of_data mQ mQ ([0, 7, 3] : List ℚ) "S1" =
      .ok (maxL (pairVals (if "S1" = "S1" then mQ else mQ).dist [0, 7, 3]) * 2) :=
  ⟨by decide, by norm_num, by intro a b; simpa using mQ_dist_nonneg a b,
    (diameter_is_twice_max_pairwise_distance mQ mQ [0, 7, 3] "S1" (by decide)
      (by norm_num) (by intro a b; simpa using mQ_dist_nonneg a b)).1⟩

theorem pairVals_perm {P : Type} (d : P → P → ℚ) (hsym : ∀ a b, d a b = d b a)
    {l l' : List P} (h : l.Perm l') : (pairVals d l).Perm (pairVals d l') := by
  induction h with
  | nil => simp [pairVals]
  | cons x htail ih =>
      simp only [pairVals]
      exact (htail.map (d x)).append ih
  | swap x y l =>
      simp only [pairVals, List.map_cons, List.cons_append]
      rw [hsym y x]
      apply List.Perm.cons
      rw [← List.append_assoc, ← List.append_assoc]
      exact List.perm_append_comm.append (List.Perm.refl _)
  | trans h1 h2 ih1 ih2 => exact ih1.trans ih2

/-- C8: for every pair of point clouds that are permutations of each
other and a symmetric metric (the MetricProvider contract),
`diameter_of_data` returns the same value on both, whatever the space
argument. -/
theorem diameter_permutation_invariant {P T : Type}
    (mS1 mS2 : MetricProvider P T) (points points' : List P) (space : String)
    (hs1 : ∀ a b, mS1.dist a b = mS1.dist b a)
    (hs2 : ∀ a b, mS2.dist a b = mS2.dist b a)
    (hperm : points.Perm points') :
    diameter_of_data mS1 mS2 points space = diameter_of_data mS1 mS2 points' space := by
  by_cases hsp : space ∈ IMPLEMENTED
  · have hsym : ∀ a b, (if space = "S1" then mS1 else mS2).dist a b =
        (if space = "S1" then mS1 else mS2).dist b a := by
      intro a b
      split
      · exact hs1 a b
      · exact hs2 a b
    have hcond : ¬ space ∉ IMPLEMENTED := by simpa using hsp
    simp only [diameter_of_data, if_neg hcond]
    congr 1
    rw [diamLoop_eq_foldl, diamLoop_eq_foldl]
    exact (pairVals_perm _ hsym hperm).foldl_eq'
      (by
        intro a ha b hb z
        exact sup_right_comm z (a * 2) (b * 2)) 0
  · simp [diameter_of_data, hsp]

/-- Witness for C8 on a concrete input: the cloud `[0, 1, 5]` and its
rotation `[5, 0, 1]` on the mock line manifold give the same diameter. -/
theorem diameter_permutation_invariant_witness :
    (∀ a b : ℚ, mQ.dist a b = mQ.dist b a) ∧
    ([0, 1, 5] : List ℚ).Perm [5, 0, 1] ∧
    diameter_of_data mQ mQ ([0, 1, 5] : List ℚ) "S1" =
      diameter_of_data mQ mQ ([5, 0, 1] : List ℚ) "S1" :=
  ⟨mQ_dist_symm, by decide,
    diameter_permutation_invariant mQ mQ [0, 1, 5] [5, 0, 1] "S1"
      mQ_dist_symm mQ_dist_symm (by decide)⟩

/-! ## The Karcher-mean solver -/

/-- C3: each check of the Karcher loop exits with the current pair
(mean, step count) exactly when `gap ≤ tolerance`; otherwise one more
iteration maps the mean `m` to the exponential, at `m`, of the average
of the `N` tangent vectors `log(p, m)` over all cloud points, recomputes
the gap as the distance from `m` to the new mean, replaces `m` and
increments the step counter (running out of fuel in the embedding models
a run that has not converged yet). -/
theorem karcher_loop_iteration_structure {P T : Type} [AddCommMonoid T]
    [Module ℚ T] (metric : MetricProvider P T) (points : List P)
    (tolerance : ℚ) (fuel : ℕ) (m : P) (gap : ℚ) (step : ℕ) :
    karcherLoop metric points tolerance fuel m gap step =
      if gap ≤ tolerance then some (m, step)
      else
        match fuel with
        | 0 => none
        | fuel' + 1 =>
            karcherLoop metric points tolerance fuel'
              (metric.exp (((points.length : ℚ)⁻¹) •
                ((points.map (fun p => metric.log p m)).foldr (· + ·) 0)) m)
              (metric.dist m
                (metric.exp (((points.length : ℚ)⁻¹) •
                  ((points.map (fun p => metric.log p m)).foldr (· + ·) 0)) m))
              (step + 1) := by
  cases fuel with
  | zero =>
      by_cases h : gap ≤ tolerance
      · rw [if_pos h]
        simp only [karcherLoop]
        rw [if_neg (not_lt.mpr h)]
      · rw [if_neg h]
        simp only [karcherLoop]
        rw [if_pos (not_le.mp h)]
  | succ f =>
      by_cases h : gap ≤ tolerance
      · rw [if_pos h]
        simp only [karcherLoop]
        rw [if_neg (not_lt.mpr h)]
      · rw [if_neg h]
        simp only [karcherLoop, tanAvg]
        rw [if_pos (not_le.mp h)]

/-! ## The competitive-learning quantizer -/

theorem quantLoop_step_le {P T : Type} [Inhabited P] [AddCommMonoid T]
    [Module ℚ T] (mS1 mS2 : MetricProvider P T) (space : String)
    (points : List P) (n_repetition : ℕ) (tolerance : ℚ) :
    ∀ (fuel : ℕ) (r : RNG) (centers : List P) (gap : ℚ) (step : ℕ)
      (out : List P × ℕ),
      quantLoop mS1 mS2 space points n_repetition tolerance fuel r centers gap step =
        .ok (some out) → step ≤ out.2 := by
  intro fuel
  induction fuel with
  | zero =>
      intro r centers gap step out h
      simp only [quantLoop] at h
      by_cases hg : tolerance < gap
      · rw [if_pos hg] at h; simp at h
      · rw [if_neg hg] at h
        simp only [Except.ok.injEq, Option.some.injEq] at h
        rw [← h]
  | succ f ih =>
      intro r centers gap step out h
      simp only [quantLoop] at h
      split at h
      · split at h
        · simp at h
        · split at h
          · simp at h
          · split at h
            · simp at h
            · have := ih _ _ _ _ _ h
              omega
      · simp only [Except.ok.injEq, Option.some.injEq] at h
        rw [← h]

theorem quantLoop_length {P T : Type} [Inhabited P] [AddCommMonoid T]
    [Module ℚ T] (mS1 mS2 : MetricProvider P T) (space : String)
    (points : List P) (n_repetition : ℕ) (tolerance : ℚ) :
    ∀ (fuel : ℕ) (r : RNG) (centers : List P) (gap : ℚ) (step : ℕ)
      (out : List P × ℕ),
      quantLoop mS1 mS2 space points n_repetition tolerance fuel r centers gap step =
        .ok (some out) → out.1.length = centers.length := by
  intro fuel
  induction fuel with
  | zero =>
      intro r centers gap step out h
      simp only [quantLoop] at h
      by_cases hg : tolerance < gap
      · rw [if_pos hg] at h; simp at h
      · rw [if_neg hg] at h
        simp only [Except.ok.injEq, Option.some.injEq] at h
        rw [← h]
  | succ f ih =>
      intro r centers gap step out h
      simp only [quantLoop] at h
      split at h
      · split at h
        · simp at h
        · split at h
          · simp at h
          · split at h
            · simp at h
            · have := ih _ _ _ _ _ h
              simpa [List.length_set] using this
      · simp only [Except.ok.injEq, Option.some.injEq] at h
        rw [← h]

/-- C2: in the quantizer's stopping test, a raw gap of exactly zero is
replaced by `1` and any non-zero raw gap is kept unchanged; hence, for
any tolerance below `1`, a zero-movement step can never exit the loop:
a run entering the check with the substituted gap performs at least one
more step before returning. -/
theorem zero_gap_substitution_blocks_termination {P T : Type} [Inhabited P]
    [AddCommMonoid T] [Module ℚ T] (mS1 mS2 : MetricProvider P T)
    (space : String) (points : List P) (n_repetition : ℕ) (tolerance : ℚ)
    (fuel : ℕ) (r : RNG) (centers : List P) (step : ℕ)
    (out : List P × ℕ) (g : ℚ) :
    (g = 0 → gapAdjust g = 1) ∧
    (g ≠ 0 → gapAdjust g = g) ∧
    (tolerance < 1 →
      quantLoop mS1 mS2 space points n_repetition tolerance fuel r centers
        (gapAdjust 0) step = .ok (some out) →
      step < out.2) := by
  refine ⟨?_, ?_, ?_⟩
  · intro h; simp [gapAdjust, h]
  · intro h; simp [gapAdjust, h]
  · intro htol h
    have hadj : gapAdjust (0 : ℚ) = 1 := by simp [gapAdjust]
    rw [hadj] at h
    cases fuel with
    | zero =>
        simp only [quantLoop, if_pos htol] at h
        simp at h
    | succ f =>
        simp only [quantLoop] at h
        split at h
        · split at h
          · simp at h
          · split at h
            · simp at h
            · split at h
              · simp at h
              · have := quantLoop_step_le mS1 mS2 space points n_repetition
                  tolerance f _ _ _ _ _ h
                omega
        · next hcond => exact absurd htol hcond

/-- Witness for C2: the substitution at gaps `0` and `3`, and a concrete
terminating run on the mock line manifold that enters with the
substituted gap and still performs five more steps. -/
theorem zero_gap_substitution_blocks_termination_witness :
    gapAdjust 0 = 1 ∧ gapAdjust 3 = 3 ∧
    (0 : ℕ) < (([5 / 16], 5) : List ℚ × ℕ).2 := by
  refine ⟨?_, ?_, ?_⟩
  · exact (zero_gap_substitution_blocks_termination mQ mQ "S1" [0] 20 (1 / 2)
      10 rZero [10] 0 ([5 / 16], 5) 0).1 rfl
  · exact (zero_gap_substitution_blocks_termination mQ mQ "S1" [0] 20 (1 / 2)
      10 rZero [10] 0 ([5 / 16], 5) 3).2.1 (by norm_num)
  · exact (zero_gap_substitution_blocks_termination mQ mQ "S1" [0] 20 (1 / 2)
      10 rZero [10] 0 ([5 / 16], 5) 0).2.2 (by norm_num)
      (by norm_num [quantLoop, sample_from, drawIndices, RNG.next, rZero,
        closest_neighbor, IMPLEMENTED, argminL, minL, mQ, smul_eq_mul, gapAdjust])

/-! ## The final labeling pass and the weight vector -/

theorem getD_set_incr : ∀ (w : List ℚ) (idx : ℕ), idx < w.length → ∀ c : ℕ,
    (w.set idx (w.getD idx 0 + 1)).getD c 0 =
      w.getD c 0 + if c = idx then 1 else 0 := by
  intro w
  induction w with
  | nil => intro idx h; simp at h
  | cons a t ih =>
      intro idx h c
      cases idx with
      | zero =>
          cases c with
          | zero => simp
          | succ k => simp
      | succ i =>
          have hi : i < t.length := by simpa using h
          cases c with
          | zero => simp
          | succ k => simpa using ih i hi k

theorem sum_set_incr : ∀ (w : List ℚ) (idx : ℕ), idx < w.length →
    (w.set idx (w.getD idx 0 + 1)).sum = w.sum + 1 := by
  intro w
  induction w with
  | nil => intro idx h; simp at h
  | cons a t ih =>
      intro idx h
      cases idx with
      | zero => simp [List.sum_cons]; ring
      | succ i =>
          have hi : i < t.length := by simpa using h
          simp only [List.set_cons_succ, List.getD_cons_succ, List.sum_cons, ih i hi]
          ring

theorem drawIndices_length (high : ℕ) :
    ∀ (size : ℕ) (r : RNG), (drawIndices high size r).1.length = size := by
  intro size
  induction size with
  | zero => intro r; simp [drawIndices]
  | succ n ih => intro r; simp [drawIndices, ih]

theorem sample_from_ok {P : Type} [Inhabited P] {points : List P} {size : ℕ}
    {r : RNG} {s : List P × RNG} (h : sample_from points size r = .ok s) :
    points.length ≠ 0 ∧ s.1.length = size := by
  by_cases hp : points.length = 0
  · simp [sample_from, hp] at h
  · simp only [sample_from, hp, if_false] at h
    refine ⟨hp, ?_⟩
    simp only [Except.ok.injEq] at h
    rw [← h]
    simp [drawIndices_length]

theorem getD_map_div (l : List ℚ) (d : ℚ) (c : ℕ) (hc : c < l.length) :
    (l.map (fun x => x / d)).getD c 0 = l.getD c 0 / d := by
  rw [List.getD_eq_getElem _ _ (by simpa using hc), List.getD_eq_getElem _ _ hc,
    List.getElem_map]

theorem sum_map_div : ∀ (l : List ℚ) (d : ℚ),
    (l.map (fun x => x / d)).sum = l.sum / d := by
  intro l
  induction l with
  | nil => intro d; simp
  | cons a t ih => intro d; simp [ih, add_div]

theorem getD_replicate_zero : ∀ (n c : ℕ), (List.replicate n (0 : ℚ)).getD c 0 = 0 := by
  intro n
  induction n with
  | zero => intro c; simp
  | succ m ih =>
      intro c
      cases c with
      | zero => simp [List.replicate_succ]
      | succ k => simp [List.replicate_succ, ih k]

theorem labelLoop_spec {P T : Type} (mS1 mS2 : MetricProvider P T)
    (space : String) (centers : List P) :
    ∀ (rest : List P) (cl0 : List ℕ) (w0 : List ℚ) (out : List ℕ × List ℚ),
      w0.length = centers.length →
      labelLoop mS1 mS2 space centers rest cl0 w0 = .ok out →
      ∃ labs : List ℕ,
        out.1 = cl0 ++ labs ∧
        labs.length = rest.length ∧
        (∀ i ∈ labs, i < centers.length) ∧
        out.2.length = w0.length ∧
        (∀ c : ℕ, out.2.getD c 0 = w0.getD c 0 + (labs.count c : ℚ)) ∧
        out.2.sum = w0.sum + rest.length := by
  intro rest
  induction rest with
  | nil =>
      intro cl0 w0 out hw h
      simp only [labelLoop, Except.ok.injEq] at h
      subst h
      exact ⟨[], by simp, by simp, by simp, by simp, by simp, by simp⟩
  | cons p rest ih =>
      intro cl0 w0 out hw h
      simp only [labelLoop] at h
      split at h
      · simp at h
      · next index heq =>
          have hidx : index < centers.length := closest_neighbor_ok_lt heq
          have hidxw : index < w0.length := by omega
          have hw' : (w0.set index (w0.getD index 0 + 1)).length = centers.length := by
            simpa [List.length_set] using hw
          obtain ⟨labs, h1, h2, h3, h4, h5, h6⟩ := ih (cl0 ++ [index]) _ out hw' h
          refine ⟨index :: labs, ?_, ?_, ?_, ?_, ?_, ?_⟩
          · rw [h1]; simp
          · simp [h2]
          · intro i hi
            rcases List.mem_cons.mp hi with hh | hh
            · rw [hh]; exact hidx
            · exact h3 i hh
          · rw [h4, List.length_set]
          · intro c
            rw [h5 c, getD_set_incr w0 index hidxw c]
            by_cases hci : c = index
            · simp [hci, List.count_cons]
              ring
            · have : ¬ (index = c) := fun hh => hci hh.symm
              simp [List.count_cons, hci, this]
          · rw [h6, sum_set_incr w0 index hidxw, List.length_cons]
            push_cast
            ring

theorem labelLoop_ok {P T : Type} (mS1 mS2 : MetricProvider P T)
    (space : String) (centers : List P) (hsp : space ∈ IMPLEMENTED)
    (hc : centers ≠ []) :
    ∀ (rest : List P) (cl0 : List ℕ) (w0 : List ℚ),
      ∃ out, labelLoop mS1 mS2 space centers rest cl0 w0 = .ok out := by
  intro rest
  induction rest with
  | nil => intro cl0 w0; exact ⟨(cl0, w0), by simp [labelLoop]⟩
  | cons p rest ih =>
      intro cl0 w0
      obtain ⟨out, hout⟩ := ih (cl0 ++
        [argminL (centers.map ((if space = "S1" then mS1 else mS2).dist p))])
        (w0.set (argminL (centers.map ((if space = "S1" then mS1 else mS2).dist p)))
          (w0.getD (argminL (centers.map ((if space = "S1" then mS1 else mS2).dist p))) 0 + 1))
      refine ⟨out, ?_⟩
      simp only [labelLoop, closest_neighbor_supported mS1 mS2 p centers space hsp hc]
      exact hout

/-- C5: on any terminating run of `optimal_quantization`, the returned
weights are exactly the per-center label counts of the returned
clustering divided by the cloud size: the weight vector has one entry
per center, each entry is the fraction of points carrying that label,
entries are non-negative and sum exactly to one, and every clustering
label is a valid center index. -/
theorem quantization_weights_from_label_counts {P T : Type} [Inhabited P]
    [AddCommMonoid T] [Module ℚ T] (mS1 mS2 : MetricProvider P T)
    (points : List P) (n_centers : ℕ) (space : String) (n_repetition : ℕ)
    (tolerance : ℚ) (r : RNG) (fuel : ℕ) (centers : List P)
    (weights : List ℚ) (clustering : List ℕ) (step : ℕ)
    (h : optimal_quantization mS1 mS2 points n_centers space n_repetition tolerance r fuel =
      .ok (some (centers, weights, clustering, step))) :
    weights.length = n_centers ∧
    clustering.length = points.length ∧
    (∀ c : ℕ, c < n_centers →
      weights.getD c 0 = (clustering.count c : ℚ) / (points.length : ℚ)) ∧
    (∀ w ∈ weights, 0 ≤ w) ∧
    weights.sum = 1 ∧
    (∀ l ∈ clustering, l < n_centers) := by
  simp only [optimal_quantization] at h
  split at h
  · simp at h
  · split at h
    · simp at h
    · next c0 hsamp =>
        split at h
        · simp at h
        · simp at h
        · next fin hloop =>
            split at h
            · simp at h
            · next lw hlab =>
                simp only [Except.ok.injEq, Option.some.injEq, Prod.mk.injEq] at h
                obtain ⟨hcen, hwei, hclu, hstep⟩ := h
                have hN : points.length ≠ 0 := (sample_from_ok hsamp).1
                have hc0 : c0.1.length = n_centers := (sample_from_ok hsamp).2
                have hfin : fin.1.length = c0.1.length :=
                  quantLoop_length mS1 mS2 space points n_repetition tolerance
                    fuel c0.2 c0.1 1 0 fin hloop
                have hw0 : (List.replicate n_centers (0 : ℚ)).length = fin.1.length := by
                  simp [hfin, hc0]
                obtain ⟨labs, h1, h2, h3, h4, h5, h6⟩ :=
                  labelLoop_spec mS1 mS2 space fin.1 points [] _ lw hw0 hlab
                have hclabs : lw.1 = labs := by simpa using h1
                have hNq : ((points.length : ℚ)) ≠ 0 := by
                  exact_mod_cast hN
                refine ⟨?_, ?_, ?_, ?_, ?_, ?_⟩
                · rw [← hwei, List.length_map, h4, List.length_replicate]
                · rw [← hclu, hclabs, h2]
                · intro c hc
                  have hcl : c < lw.2.length := by
                    rw [h4, List.length_replicate]
                    exact hc
                  rw [← hwei, getD_map_div lw.2 _ c hcl, h5 c,
                    getD_replicate_zero, ← hclu, hclabs]
                  simp
                · intro w hw
                  rw [← hwei] at hw
                  rcases List.mem_map.mp hw with ⟨x, hx, hxw⟩
                  rcases List.mem_iff_get.mp hx with ⟨⟨n, hn⟩, hget⟩
                  have hx0 : 0 ≤ x := by
                    rw [← hget]
                    have : lw.2.get ⟨n, hn⟩ = lw.2.getD n 0 := by
                      rw [List.getD_eq_getElem _ _ hn]
                      rfl
                    rw [this, h5 n, getD_replicate_zero]
                    positivity
                  rw [← hxw]
                  have hNQ : (0 : ℚ) ≤ (points.length : ℚ) := by positivity
                  exact div_nonneg hx0 hNQ
                · rw [← hwei, sum_map_div, h6]
                  simp only [List.sum_replicate, smul_zero, zero_add]
                  exact div_self hNq
                · intro l hl
                  rw [← hclu, hclabs] at hl
                  have := h3 l hl
                  rw [hfin, hc0] at this
                  exact this

/-- Witness for C5: a concrete terminating run on the mock line
manifold (one point, one center, tolerance `1`, so the loop exits
immediately) whose weight vector is `[1]` and clustering is `[0]`. -/
theorem quantization_weights_from_label_counts_witness :
    optimal_quantization mQ mQ ([0] : List ℚ) 1 "S1" 20 1 rZero 5 =
      .ok (some ([0], [1], [0], 0)) ∧
    ([1] : List ℚ).length = 1 ∧
    ([0] : List ℕ).length = ([0] : List ℚ).length ∧
    (∀ c : ℕ, c < 1 →
      ([1] : List ℚ).getD c 0 = ((([0] : List ℕ).count c : ℚ)) / ((([0] : List ℚ).length : ℚ))) ∧
    (∀ w ∈ ([1] : List ℚ), 0 ≤ w) ∧
    ([1] : List ℚ).sum = 1 ∧
    (∀ l ∈ ([0] : List ℕ), l < 1) := by
  have heval : optimal_quantization mQ mQ ([0] : List ℚ) 1 "S1" 20 1 rZero 5 =
      .ok (some ([0], [1], [0], 0)) := by
    norm_num [optimal_quantization, IMPLEMENTED, sample_from, drawIndices, RNG.next,
      rZero, quantLoop, labelLoop, closest_neighbor, argminL, minL, mQ,
      smul_eq_mul, gapAdjust]
  exact ⟨heval, quantization_weights_from_label_counts mQ mQ [0] 1 "S1" 20 1
    rZero 5 [0] [1] [0] 0 heval⟩

/-- C9: with any tolerance at least `1`, the initial gap `1.0` already
fails the `gap > tolerance` test, so neither optimizer performs an
iteration: `karcher_flow` returns the randomly drawn initial point with
step count `0`, and `optimal_quantization` returns the randomly
initialized centers unmodified with step count `0` (with at least one
center, so that the final labeling pass succeeds). -/
theorem high_tolerance_zero_iterations {P T : Type} [Inhabited P]
    [AddCommMonoid T] [Module ℚ T] (mS1 mS2 : MetricProvider P T)
    (points : List P) (n_centers : ℕ) (space : String) (n_repetition : ℕ)
    (tolerance : ℚ) (r : RNG) (fuel : ℕ) (hsp : space ∈ IMPLEMENTED)
    (htol : 1 ≤ tolerance) (_hne : points ≠ []) (hnc : 1 ≤ n_centers) :
    (∀ (m0 : P) (r' : RNG), sample_from points 1 r = .ok ([m0], r') →
      karcher_flow mS1 mS2 points space tolerance r fuel = .ok (some (m0, 0))) ∧
    (∀ (centers0 : List P) (r' : RNG),
      sample_from points n_centers r = .ok (centers0, r') →
      ∃ (weights : List ℚ) (clustering : List ℕ),
        optimal_quantization mS1 mS2 points n_centers space n_repetition tolerance r fuel =
          .ok (some (centers0, weights, clustering, 0))) := by
  have hcond : ¬ space ∉ IMPLEMENTED := by simpa using hsp
  constructor
  · intro m0 r' hs
    have hexit : karcherLoop (if space = "S1" then mS1 else mS2) points tolerance
        fuel m0 1 0 = some (m0, 0) := by
      cases fuel <;> simp [karcherLoop, not_lt.mpr htol]
    simp only [karcher_flow, if_neg hcond, hs, List.getD_cons_zero, hexit]
  · intro centers0 r' hs
    have hc0 : centers0.length = n_centers := by
      have := (sample_from_ok hs).2
      simpa using this
    have hc0ne : centers0 ≠ [] := by
      intro hh
      rw [hh] at hc0
      simp at hc0
      omega
    have hloop : quantLoop mS1 mS2 space points n_repetition tolerance fuel r'
        centers0 1 0 = .ok (some (centers0, 0)) := by
      cases fuel <;> simp [quantLoop, not_lt.mpr htol]
    obtain ⟨lw, hlab⟩ := labelLoop_ok mS1 mS2 space centers0 hsp hc0ne points []
      (List.replicate n_centers 0)
    refine ⟨lw.2.map (fun w => w / (points.length : ℚ)), lw.1, ?_⟩
    simp only [optimal_quantization, if_neg hcond, hs, hloop, hlab]

/-- Witness for C9: on the one-point cloud `[0]` with tolerance `1`,
`karcher_flow` returns the drawn point with step count `0`, and
`optimal_quantization` returns the initial center set `[0]` with step
count `0`. -/
theorem high_tolerance_zero_iterations_witness :
    "S1" ∈ IMPLEMENTED ∧ (1 : ℚ) ≤ 1 ∧ ([0] : List ℚ) ≠ [] ∧ 1 ≤ 1 ∧
    karcher_flow mQ mQ ([0] : List ℚ) "S1" 1 rZero 3 = .ok (some (0, 0)) ∧
    (∃ (weights : List ℚ) (clustering : List ℕ),
      optimal_quantization mQ mQ ([0] : List ℚ) 1 "S1" 20 1 rZero 3 =
        .ok (some ([0], weights, clustering, 0))) := by
  have h := high_tolerance_zero_iterations mQ mQ ([0] : List ℚ) 1 "S1" 20 1
    rZero 3 (by decide) le_rfl (by simp) le_rfl
  have hs : sample_from ([0] : List ℚ) 1 rZero =
      .ok ([0], { seq := fun _ => 0, pos := 1 }) := by
    norm_num [sample_from, drawIndices, RNG.next, rZero]
  exact ⟨by decide, le_rfl, by simp, le_rfl,
    h.1 0 { seq := fun _ => 0, pos := 1 } hs,
    h.2 [0] { seq := fun _ => 0, pos := 1 } hs⟩
